import Mathlib

/-!
Verification development for the streaming chat client in `src/App.tsx`.

Strings of the JavaScript source are modelled as `List Char`. The streaming
response decoder, the message state updates and the error handling of
`handleSendMessage` are embedded as executable Lean definitions below, and
the testable properties of the specification are settled as theorems.
-/

/-- Modelled from the spec: the `MessageRole` enum imported from `./types`
(absent from the sources) has the two roles USER and ASSISTANT; the code
names the assistant role `MODEL`. -/
inductive MessageRole where
  | user
  | model
deriving DecidableEq

/-- A chat message, as in `ChatMessage` of `./types`: a role and a content
string. -/
structure ChatMessage where
  role : MessageRole
  content : List Char
deriving DecidableEq

/-- Whitespace as removed by JavaScript `String.prototype.trim` (space and
the control characters HT, LF, VT, FF, CR). -/
def wsChar (c : Char) : Bool :=
  c = ' ' || (9 ≤ c.toNat && c.toNat ≤ 13)

/-- JavaScript `String.prototype.trim`: drop whitespace from both ends. -/
def trimChars (cs : List Char) : List Char :=
  (((cs.dropWhile wsChar).reverse).dropWhile wsChar).reverse

/-- JavaScript `String.prototype.split('\n')`: split into the (possibly
empty) fragments between newline characters; always returns at least one
fragment. -/
def splitNl : List Char → List (List Char)
  | [] => [[]]
  | c :: rest =>
    if c = '\n' then [] :: splitNl rest
    else
      match splitNl rest with
      | [] => [[c]]
      | p :: ps => (c :: p) :: ps

/-- JSON values, the result type of the modelled `JSON.parse`. -/
inductive Json where
  | null
  | bool (b : Bool)
  | num (n : Int)
  | str (s : List Char)
  | arr (elems : List Json)
  | obj (members : List (List Char × Json))

/-- Value of a hexadecimal digit character. -/
def hexVal (c : Char) : Option Nat :=
  if '0' ≤ c ∧ c ≤ '9' then some (c.toNat - 48)
  else if 'a' ≤ c ∧ c ≤ 'f' then some (c.toNat - 87)
  else if 'A' ≤ c ∧ c ≤ 'F' then some (c.toNat - 55)
  else none

/-- Single-character JSON escape sequences. -/
def unescapeChar (c : Char) : Option Char :=
  if c = '"' then some '"'
  else if c = '\\' then some '\\'
  else if c = '/' then some '/'
  else if c = 'b' then some '\x08'
  else if c = 'f' then some '\x0c'
  else if c = 'n' then some '\n'
  else if c = 'r' then some '\r'
  else if c = 't' then some '\t'
  else none

/-- Parse the body of a JSON string literal (after the opening quote) up to
and including the closing quote, returning the decoded characters and the
remaining input.  Literal control characters are rejected, as in JSON. -/
def parseStringBody : List Char → Option (List Char × List Char)
  | [] => none
  | c :: rest =>
    if c = '"' then some ([], rest)
    else if c = '\\' then
      match rest with
      | [] => none
      | e :: rest2 =>
        if e = 'u' then
          match rest2 with
          | h1 :: h2 :: h3 :: h4 :: rest3 =>
            match hexVal h1, hexVal h2, hexVal h3, hexVal h4 with
            | some a, some b, some c2, some d =>
              match parseStringBody rest3 with
              | some (s, r) => some (Char.ofNat (4096 * a + 256 * b + 16 * c2 + d) :: s, r)
              | none => none
            | _, _, _, _ => none
          | _ => none
        else
          match unescapeChar e with
          | some u =>
            match parseStringBody rest2 with
            | some (s, r) => some (u :: s, r)
            | none => none
          | none => none
    else if c.toNat < 32 then none
    else
      match parseStringBody rest with
      | some (s, r) => some (c :: s, r)
      | none => none

/-- Accumulate a run of decimal digits. -/
def parseDigits : Nat → List Char → Nat × List Char
  | acc, [] => (acc, [])
  | acc, c :: rest =>
    if c.isDigit then parseDigits (10 * acc + (c.toNat - 48)) rest
    else (acc, c :: rest)

/-- Skip JSON whitespace. -/
def skipWs (cs : List Char) : List Char := cs.dropWhile wsChar

mutual

/-- Parse one JSON value (fuelled recursive-descent model of `JSON.parse`). -/
def parseValue : Nat → List Char → Option (Json × List Char)
  | 0, _ => none
  | f + 1, cs =>
    match skipWs cs with
    | [] => none
    | c :: rest =>
      if c = '"' then
        match parseStringBody rest with
        | some (s, r) => some (Json.str s, r)
        | none => none
      else if c = '\x7b' then parseObjBody f (skipWs rest)
      else if c = '[' then parseArrBody f (skipWs rest)
      else if c = 't' then
        match rest with
        | 'r' :: 'u' :: 'e' :: r => some (Json.bool true, r)
        | _ => none
      else if c = 'f' then
        match rest with
        | 'a' :: 'l' :: 's' :: 'e' :: r => some (Json.bool false, r)
        | _ => none
      else if c = 'n' then
        match rest with
        | 'u' :: 'l' :: 'l' :: r => some (Json.null, r)
        | _ => none
      else if c = '-' then
        match rest with
        | d :: r =>
          if d.isDigit then
            let (n, r2) := parseDigits (d.toNat - 48) r
            some (Json.num (-(n : Int)), r2)
          else none
        | [] => none
      else if c.isDigit then
        let (n, r2) := parseDigits (c.toNat - 48) rest
        some (Json.num (n : Int), r2)
      else none

/-- Parse the inside of a JSON object, the opening brace already consumed
and whitespace skipped. -/
def parseObjBody : Nat → List Char → Option (Json × List Char)
  | 0, _ => none
  | f + 1, cs =>
    match cs with
    | '\x7d' :: r => some (Json.obj [], r)
    | _ =>
      match parseMembers f cs with
      | some (kvs, r) => some (Json.obj kvs, r)
      | none => none

/-- Parse one or more `"key": value` members followed by the closing brace. -/
def parseMembers : Nat → List Char → Option (List (List Char × Json) × List Char)
  | 0, _ => none
  | f + 1, cs =>
    match cs with
    | '"' :: r =>
      match parseStringBody r with
      | some (k, r2) =>
        match skipWs r2 with
        | ':' :: r3 =>
          match parseValue f r3 with
          | some (v, r4) =>
            match skipWs r4 with
            | ',' :: r5 =>
              match parseMembers f (skipWs r5) with
              | some (kvs, r6) => some ((k, v) :: kvs, r6)
              | none => none
            | '\x7d' :: r5 => some ([(k, v)], r5)
            | _ => none
          | none => none
        | _ => none
      | none => none
    | _ => none

/-- Parse the inside of a JSON array, the opening bracket already consumed
and whitespace skipped. -/
def parseArrBody : Nat → List Char → Option (Json × List Char)
  | 0, _ => none
  | f + 1, cs =>
    match cs with
    | ']' :: r => some (Json.arr [], r)
    | _ =>
      match parseElems f cs with
      | some (vs, r) => some (Json.arr vs, r)
      | none => none

/-- Parse one or more array elements followed by the closing bracket. -/
def parseElems : Nat → List Char → Option (List Json × List Char)
  | 0, _ => none
  | f + 1, cs =>
    match parseValue f cs with
    | some (v, r) =>
      match skipWs r with
      | ',' :: r2 =>
        match parseElems f (skipWs r2) with
        | some (vs, r3) => some (v :: vs, r3)
        | none => none
      | ']' :: r2 => some ([v], r2)
      | _ => none
    | none => none

end

/-- Model of JavaScript `JSON.parse`: parse one value and require only
whitespace to remain; `none` models a thrown `SyntaxError`. -/
def jsonParse (cs : List Char) : Option Json :=
  match parseValue (cs.length + 1) cs with
  | some (v, rest) => if (skipWs rest).isEmpty then some v else none
  | none => none

/-- Look a key up in the member list of a JSON object (first match). -/
def lookupKv : List (List Char × Json) → List Char → Option Json
  | [], _ => none
  | (k, v) :: rest, key => if k = key then some v else lookupKv rest key

/-- JavaScript property access `o.k` on a parsed JSON value; `none` models
`undefined` (and the thrown `TypeError` on non-objects, which the
surrounding `try` turns into the same skip). -/
def objGet : Json → List Char → Option Json
  | Json.obj kvs, k => lookupKv kvs k
  | _, _ => none

/-- JavaScript index access `a[0]` on a parsed JSON value. -/
def indexZero : Json → Option Json
  | Json.arr (x :: _) => some x
  | _ => none

/-- The extraction `parsed.choices[0]?.delta?.content` from the source;
`none` stands for `undefined` (or a `TypeError` caught by the `try`). -/
def extractContent (j : Json) : Option Json :=
  (objGet j ("choices".data)).bind fun c =>
    (indexZero c).bind fun c0 =>
      (objGet c0 ("delta".data)).bind fun d =>
        objGet d ("content".data)

/-- JavaScript truthiness of a JSON value, as tested by `if (content)`. -/
def jsTruthy : Json → Bool
  | Json.null => false
  | Json.bool b => b
  | Json.num n => n ≠ 0
  | Json.str s => s ≠ []
  | Json.arr _ => true
  | Json.obj _ => true

/-- JavaScript string coercion of a JSON value as appended by
`fullResponse += content` (the array case is approximated). -/
def jsCoerce : Json → List Char
  | Json.str s => s
  | Json.num n => (toString n).data
  | Json.bool true => "true".data
  | Json.bool false => "false".data
  | Json.null => "null".data
  | Json.arr _ => []
  | Json.obj _ => "[object Object]".data

/-- The text a `data: ` payload appends to `fullResponse`: parse the payload
as JSON, extract `choices[0]?.delta?.content`, and keep it when truthy.
`none` means nothing is appended (parse error or falsy content). -/
def contentDelta (data : List Char) : Option (List Char) :=
  match jsonParse data with
  | none => none
  | some j =>
    match extractContent j with
    | none => none
    | some v => if jsTruthy v then some (jsCoerce v) else none

/-- Replace the content of the last message, keeping everything else, as the
`setMessages` updater at lines 172-176 of `App.tsx` does. -/
def setLastContent : List ChatMessage → List Char → List ChatMessage
  | [], _ => []
  | [m], s => [⟨m.role, s⟩]
  | m :: m2 :: rest, s => m :: setLastContent (m2 :: rest) s

/-- State of the decoder loop in `handleSendMessage`: the carry-over
`buffer`, the cumulative `fullResponse`, the message list, and two traces
recording every `setMessages` argument and every appended delta. -/
structure DecodeState where
  buffer : List Char
  fullResponse : List Char
  messages : List ChatMessage
  applied : List (List Char)
  deltas : List (List Char)

/-- The line prefix `data: ` checked by the decoder. -/
def dataPfx : List Char := "data: ".data

/-- The trimmed sentinel payload `[DONE]`. -/
def doneChars : List Char := "[DONE]".data

/-- The `for (const line of lines)` loop of `handleSendMessage`: skip blank
and non-`data: ` lines, stop at the `[DONE]` sentinel, otherwise append the
extracted delta and update the last message. -/
def processLines : List (List Char) → DecodeState → DecodeState
  | [], st => st
  | line :: rest, st =>
    if trimChars line = [] ∨ dataPfx.isPrefixOf line = false then
      processLines rest st
    else
      let data := line.drop 6
      if trimChars data = doneChars then st
      else
        match contentDelta data with
        | none => processLines rest st
        | some c =>
          let full := st.fullResponse ++ c
          processLines rest
            { st with
              fullResponse := full
              messages := setLastContent st.messages full
              applied := st.applied ++ [full]
              deltas := st.deltas ++ [c] }

/-- One iteration of the `while` read loop: append the chunk to the buffer,
split on newlines, keep the final (possibly incomplete) fragment as the new
buffer, and process the complete lines. -/
def processChunk (st : DecodeState) (chunk : List Char) : DecodeState :=
  processLines (splitNl (st.buffer ++ chunk)).dropLast
    { st with buffer := ((splitNl (st.buffer ++ chunk)).getLast?).getD [] }

/-- Initial decoder state: empty buffer and `fullResponse`, the given
message list. -/
def initDecodeState (msgs : List ChatMessage) : DecodeState :=
  ⟨[], [], msgs, [], []⟩

/-- The whole decoder loop of `handleSendMessage` over a list of stream
chunks. -/
def runDecoder (chunks : List (List Char)) (msgs : List ChatMessage) : DecodeState :=
  chunks.foldl processChunk (initDecodeState msgs)

/-- Content of the seeded greeting message of the `messages` state hook. -/
def greetingChars : List Char :=
  "Hello! I\x27m a voice-enabled AI assistant. How can I help you today?".data

/-- The initial `messages` state: one seeded assistant greeting. -/
def initialMessages : List ChatMessage :=
  [⟨MessageRole.model, greetingChars⟩]

/-- The `speak` callback: speech synthesis is invoked only for a non-empty
text; the spoken texts are accumulated as a trace. -/
def speak (spoken : List (List Char)) (text : List Char) : List (List Char) :=
  if text = [] then spoken else spoken ++ [text]

/-- The error string synthesized in the `catch` block of
`handleSendMessage`. -/
def errorMessageFor (reason : List Char) : List Char :=
  "Sorry, I encountered an error: ".data ++ reason
    ++ ". Please check your API key and network connection.".data

/-- The `setMessages` updater of the `catch` block: overwrite the last
message when it is an assistant message, otherwise push a new assistant
message. -/
def applyErrorToMessages (msgs : List ChatMessage) (err : List Char) : List ChatMessage :=
  match msgs.getLast? with
  | some m =>
    if m.role = MessageRole.model then setLastContent msgs err
    else msgs ++ [⟨MessageRole.model, err⟩]
  | none => msgs ++ [⟨MessageRole.model, err⟩]

/-- The reason string of the error thrown for a non-2xx response:
`errorData.error.message || "API error"`, where `errorData` is the parsed
response body, falling back to `(\x7b error: \x7b message: statusText \x7d \x7d)`
when the body is not valid JSON.  A `TypeError` thrown by the property
access on a body without an `error` object is modelled by its message. -/
def httpErrorReason (body statusText : List Char) : List Char :=
  let errorData :=
    (jsonParse body).getD (Json.obj [("error".data, Json.obj [("message".data, Json.str statusText)])])
  match objGet errorData ("error".data) with
  | some e =>
    match objGet e ("message".data) with
    | some v => if jsTruthy v then jsCoerce v else "API error".data
    | none => "API error".data
  | none => "TypeError: Cannot read properties of undefined".data

/-- Outcome of the `fetch` and of reading the response stream: either the
stream completes after delivering `chunks`, or an error is thrown (with the
given reason, as carried by the `Error` object) after `chunks` were already
processed; a pre-stream failure such as a non-2xx status or a null body is
a `failure` with `chunks = []`. -/
inductive FetchOutcome where
  | success (chunks : List (List Char))
  | failure (chunks : List (List Char)) (reason : List Char)

/-- The component state touched by `handleSendMessage`: the message list,
the input field, the busy flag, the trace of spoken texts and a counter of
issued HTTP requests. -/
structure AppState where
  messages : List ChatMessage
  userInput : List Char
  isLoading : Bool
  spoken : List (List Char)
  requests : Nat
deriving DecidableEq

/-- One complete run of `handleSendMessage text` with the given fetch
outcome: the guard at line 105, the appending of the user message and the
assistant placeholder, the decoder loop, the success path speaking
`fullResponse`, and the `catch` path overwriting or appending the error
message and speaking it; `finally` clears `isLoading`. -/
def handleSendMessage (st : AppState) (text : List Char) (outcome : FetchOutcome) : AppState :=
  if st.isLoading = true ∨ trimChars text = [] then st
  else
    let updatedMessages := st.messages ++ [⟨MessageRole.user, text⟩]
    let msgs1 := updatedMessages ++ [⟨MessageRole.model, []⟩]
    match outcome with
    | FetchOutcome.success chunks =>
      let d := runDecoder chunks msgs1
      ⟨d.messages, [], false, speak st.spoken d.fullResponse, st.requests + 1⟩
    | FetchOutcome.failure chunks reason =>
      let d := runDecoder chunks msgs1
      let err := errorMessageFor reason
      ⟨applyErrorToMessages d.messages err, [], false, speak st.spoken err, st.requests + 1⟩

/-- Content of the last message, if any. -/
def lastContent (msgs : List ChatMessage) : Option (List Char) :=
  (msgs.getLast?).map ChatMessage.content

/-- Whether the last message exists and has the assistant role. -/
def lastIsModel (msgs : List ChatMessage) : Bool :=
  match msgs.getLast? with
  | some m => m.role = MessageRole.model
  | none => false

/-- Session states of the conversation component: the message list plus the
`isLoading` busy flag of the single in-flight request. -/
structure ChatSession where
  messages : List ChatMessage
  inFlight : Bool

/-- Reachable session states: start from the seeded greeting; a submission
appends the user message and the assistant placeholder and sets the busy
flag; while busy, stream deltas replace the content of the last message;
the run ends either successfully or through the `catch` block. -/
inductive Reachable : ChatSession → Prop where
  | init : Reachable ⟨initialMessages, false⟩
  | submit (s : ChatSession) (text : List Char) : Reachable s → s.inFlight = false →
      trimChars text ≠ [] →
      Reachable ⟨(s.messages ++ [⟨MessageRole.user, text⟩]) ++ [⟨MessageRole.model, []⟩], true⟩
  | delta (s : ChatSession) (full : List Char) : Reachable s → s.inFlight = true →
      Reachable ⟨setLastContent s.messages full, true⟩
  | finish (s : ChatSession) : Reachable s → s.inFlight = true →
      Reachable ⟨s.messages, false⟩
  | fail (s : ChatSession) (reason : List Char) : Reachable s → s.inFlight = true →
      Reachable ⟨applyErrorToMessages s.messages (errorMessageFor reason), false⟩

lemma setLastContent_eq (msgs : List ChatMessage) (h : msgs ≠ []) (s : List Char) :
    setLastContent msgs s = msgs.dropLast ++ [⟨(msgs.getLast h).role, s⟩] := by
  induction msgs with
  | nil => exact absurd rfl h
  | cons m rest ih =>
    cases rest with
    | nil => simp [setLastContent]
    | cons m2 rest2 =>
      simp only [setLastContent, ih (by simp), List.dropLast_cons₂, List.cons_append,
        List.getLast_cons (by simp : (m2 :: rest2 : List ChatMessage) ≠ [])]

lemma length_setLastContent (msgs : List ChatMessage) (s : List Char) :
    (setLastContent msgs s).length = msgs.length := by
  induction msgs with
  | nil => rfl
  | cons m rest ih =>
    cases rest with
    | nil => rfl
    | cons m2 rest2 => simpa [setLastContent] using ih

lemma setLastContent_ne_nil (msgs : List ChatMessage) (s : List Char) (h : msgs ≠ []) :
    setLastContent msgs s ≠ [] := by
  intro he
  have := length_setLastContent msgs s
  rw [he] at this
  exact h (List.length_eq_zero.mp this.symm)

lemma lastContent_setLastContent (msgs : List ChatMessage) (s : List Char) (h : msgs ≠ []) :
    lastContent (setLastContent msgs s) = some s := by
  rw [setLastContent_eq msgs h s]
  simp [lastContent]

lemma lastIsModel_setLastContent (msgs : List ChatMessage) (s : List Char) (h : msgs ≠ []) :
    lastIsModel (setLastContent msgs s) = lastIsModel msgs := by
  rw [setLastContent_eq msgs h s]
  simp [lastIsModel, List.getLast?_eq_getLast _ h]

lemma applyError_eq_overwrite (msgs : List ChatMessage) (err : List Char) (m : ChatMessage)
    (hm : msgs.getLast? = some m) (hr : m.role = MessageRole.model) :
    applyErrorToMessages msgs err = setLastContent msgs err := by
  unfold applyErrorToMessages
  rw [hm]
  simp [hr]

lemma applyError_eq_push (msgs : List ChatMessage) (err : List Char) (m : ChatMessage)
    (hm : msgs.getLast? = some m) (hr : m.role ≠ MessageRole.model) :
    applyErrorToMessages msgs err = msgs ++ [⟨MessageRole.model, err⟩] := by
  unfold applyErrorToMessages
  rw [hm]
  simp [hr]

lemma applyError_eq_push_nil (msgs : List ChatMessage) (err : List Char)
    (hm : msgs.getLast? = none) :
    applyErrorToMessages msgs err = msgs ++ [⟨MessageRole.model, err⟩] := by
  unfold applyErrorToMessages
  rw [hm]

lemma lastIsModel_applyError (msgs : List ChatMessage) (err : List Char) :
    lastIsModel (applyErrorToMessages msgs err) = true := by
  cases hm : msgs.getLast? with
  | none => rw [applyError_eq_push_nil _ _ hm]; simp [lastIsModel]
  | some m =>
    have hne : msgs ≠ [] := by
      intro he; rw [he] at hm; exact Option.noConfusion hm
    by_cases hr : m.role = MessageRole.model
    · rw [applyError_eq_overwrite _ _ _ hm hr, lastIsModel_setLastContent _ _ hne]
      simp [lastIsModel, hm, hr]
    · rw [applyError_eq_push _ _ _ hm hr]
      simp [lastIsModel]

lemma applyError_ne_nil (msgs : List ChatMessage) (err : List Char) :
    applyErrorToMessages msgs err ≠ [] := by
  cases hm : msgs.getLast? with
  | none => rw [applyError_eq_push_nil _ _ hm]; simp
  | some m =>
    have hne : msgs ≠ [] := by
      intro he; rw [he] at hm; exact Option.noConfusion hm
    by_cases hr : m.role = MessageRole.model
    · rw [applyError_eq_overwrite _ _ _ hm hr]; exact setLastContent_ne_nil _ _ hne
    · rw [applyError_eq_push _ _ _ hm hr]; simp

/-- Claim C4: a call of `handleSendMessage` with empty or whitespace-only
text, or made while a request is in flight, is a no-op: the whole component
state, message list included, is unchanged and no HTTP request is issued. -/
theorem C4_submit_noop (st : AppState) (text : List Char) (outcome : FetchOutcome)
    (h : st.isLoading = true ∨ trimChars text = []) :
    handleSendMessage st text outcome = st := by
  unfold handleSendMessage
  rw [if_pos h]

theorem C4_submit_noop_witness :
    trimChars ("   ".data) = [] ∧
      handleSendMessage ⟨initialMessages, [], false, [], 0⟩ ("   ".data)
        (FetchOutcome.success []) = ⟨initialMessages, [], false, [], 0⟩ :=
  ⟨by decide, C4_submit_noop _ _ _ (Or.inr (by decide))⟩

/-- Claim C5: applying a cumulative delta replaces only the content of the
last message: every other message keeps its place and value, the last keeps
its role, and the length of the sequence is unchanged. -/
theorem C5_applyDelta_frame (msgs : List ChatMessage) (s : List Char) (h : msgs ≠ []) :
    setLastContent msgs s = msgs.dropLast ++ [⟨(msgs.getLast h).role, s⟩] ∧
      (setLastContent msgs s).length = msgs.length :=
  ⟨setLastContent_eq msgs h s, length_setLastContent msgs s⟩

theorem C5_applyDelta_frame_witness :
    setLastContent [⟨MessageRole.user, "q".data⟩, ⟨MessageRole.model, []⟩] ("ok".data)
        = [⟨MessageRole.user, "q".data⟩] ++ [⟨MessageRole.model, "ok".data⟩] ∧
      (setLastContent [⟨MessageRole.user, "q".data⟩, ⟨MessageRole.model, []⟩] ("ok".data)).length
        = 2 := by
  have := C5_applyDelta_frame [⟨MessageRole.user, "q".data⟩, ⟨MessageRole.model, []⟩]
    ("ok".data) (by decide)
  exact this

/-- Claim C9: a run of `handleSendMessage` started from an idle state always
ends with the busy flag cleared, for every outcome, so no failure blocks a
later submission. -/
theorem C9_clears_busy (st : AppState) (text : List Char) (outcome : FetchOutcome)
    (h : st.isLoading = false) :
    (handleSendMessage st text outcome).isLoading = false := by
  unfold handleSendMessage
  by_cases hg : st.isLoading = true ∨ trimChars text = []
  · rw [if_pos hg]; exact h
  · rw [if_neg hg]; cases outcome <;> rfl

theorem C9_clears_busy_witness :
    (handleSendMessage ⟨initialMessages, [], false, [], 0⟩ ("hi".data)
        (FetchOutcome.failure [] ("network down".data))).isLoading = false :=
  C9_clears_busy _ _ _ rfl

/-- Claim C10: on request failure, when the conversation is empty or its
last message is not an assistant message, the error string is appended as a
new assistant message rather than overwriting anything. -/
theorem C10_error_appends (msgs : List ChatMessage) (err : List Char)
    (h : lastIsModel msgs = false) :
    applyErrorToMessages msgs err = msgs ++ [⟨MessageRole.model, err⟩] := by
  unfold lastIsModel at h
  cases hm : msgs.getLast? with
  | none => exact applyError_eq_push_nil _ _ hm
  | some m =>
    rw [hm] at h
    simp only [decide_eq_true_eq] at h
    exact applyError_eq_push _ _ _ hm (by simpa using h)

theorem C10_error_appends_witness :
    applyErrorToMessages [⟨MessageRole.user, "q".data⟩] ("oops".data)
      = [⟨MessageRole.user, "q".data⟩] ++ [⟨MessageRole.model, "oops".data⟩] :=
  C10_error_appends _ _ (by decide)

/-- Claim C6: in every reachable session state, the conversation is
non-empty, and whenever a request is in flight — the only time a message is
in progress, since stream deltas target only the last message — the last
message is the assistant message receiving the stream. -/
theorem C6_in_progress_invariant (s : ChatSession) (h : Reachable s) :
    s.messages ≠ [] ∧ (s.inFlight = true → lastIsModel s.messages = true) := by
  induction h with
  | init => exact ⟨by decide, fun _ => by decide⟩
  | submit s text hr hidle hne ih =>
    refine ⟨by simp, fun _ => ?_⟩
    simp [lastIsModel]
  | delta s full hr hbusy ih =>
    obtain ⟨hne, hlast⟩ := ih
    refine ⟨setLastContent_ne_nil _ _ hne, fun _ => ?_⟩
    rw [lastIsModel_setLastContent _ _ hne]
    exact hlast hbusy
  | finish s hr hbusy ih =>
    exact ⟨ih.1, fun hco => by exact absurd hco (by simp)⟩
  | fail s reason hr hbusy ih =>
    exact ⟨applyError_ne_nil _ _, fun hco => by exact absurd hco (by simp)⟩

theorem C6_in_progress_invariant_witness :
    initialMessages ≠ [] ∧ ((false : Bool) = true → lastIsModel initialMessages = true) :=
  C6_in_progress_invariant ⟨initialMessages, false⟩ Reachable.init

/-- Claim C8: on a request-level failure, the assistant placeholder content
becomes the synthesized error string, which embeds the failure reason, and
the same string is handed to the speech-output collaborator. -/
theorem C8_request_failure (st : AppState) (text reason : List Char)
    (h1 : st.isLoading = false) (h2 : trimChars text ≠ []) :
    lastContent (handleSendMessage st text (FetchOutcome.failure [] reason)).messages
        = some (errorMessageFor reason) ∧
      (handleSendMessage st text (FetchOutcome.failure [] reason)).spoken
        = st.spoken ++ [errorMessageFor reason] ∧
      (∃ pre suf, errorMessageFor reason = pre ++ reason ++ suf) := by
  have hguard : ¬ (st.isLoading = true ∨ trimChars text = []) := by
    rintro (hb | he)
    · rw [h1] at hb; exact Bool.noConfusion hb
    · exact h2 he
  unfold handleSendMessage
  rw [if_neg hguard]
  simp only []
  set msgs1 := (st.messages ++ [⟨MessageRole.user, text⟩]) ++ [⟨MessageRole.model, []⟩] with hmsgs1
  have hrun : runDecoder [] msgs1 = initDecodeState msgs1 := rfl
  have hlastm : msgs1.getLast? = some ⟨MessageRole.model, []⟩ := by
    simp [hmsgs1]
  have hne : msgs1 ≠ [] := by simp [hmsgs1]
  have herr_ne : errorMessageFor reason ≠ [] := by
    unfold errorMessageFor
    intro he
    have := congrArg List.length he
    simp at this
  refine ⟨?_, ?_, ?_⟩
  · rw [hrun]
    show lastContent (applyErrorToMessages msgs1 (errorMessageFor reason)) = _
    rw [applyError_eq_overwrite _ _ _ hlastm rfl]
    exact lastContent_setLastContent _ _ hne
  · show speak st.spoken (errorMessageFor reason) = _
    unfold speak
    rw [if_neg herr_ne]
  · exact ⟨"Sorry, I encountered an error: ".data,
      ". Please check your API key and network connection.".data,
      by unfold errorMessageFor; simp⟩

theorem C8_request_failure_witness :
    httpErrorReason ("\x7b\"error\":\x7b\"message\":\"bad key\"\x7d\x7d".data)
        ("Unauthorized".data) = "bad key".data ∧
      lastContent (handleSendMessage ⟨initialMessages, [], false, [], 0⟩ ("hi".data)
          (FetchOutcome.failure []
            (httpErrorReason ("\x7b\"error\":\x7b\"message\":\"bad key\"\x7d\x7d".data)
              ("Unauthorized".data)))).messages
        = some (errorMessageFor
            (httpErrorReason ("\x7b\"error\":\x7b\"message\":\"bad key\"\x7d\x7d".data)
              ("Unauthorized".data))) ∧
      List.IsInfix ("bad key".data)
        (errorMessageFor
          (httpErrorReason ("\x7b\"error\":\x7b\"message\":\"bad key\"\x7d\x7d".data)
            ("Unauthorized".data))) :=
  ⟨by decide,
    (C8_request_failure ⟨initialMessages, [], false, [], 0⟩ ("hi".data) _ rfl (by decide)).1,
    by decide⟩

/-- The running concatenations of a list of deltas starting from `acc`: the
sequence of cumulative texts the decoder hands to `setMessages`. -/
def runningCats (acc : List Char) : List (List Char) → List (List Char)
  | [] => []
  | d :: ds => (acc ++ d) :: runningCats (acc ++ d) ds

lemma runningCats_append (acc : List Char) (xs ys : List (List Char)) :
    runningCats acc (xs ++ ys) = runningCats acc xs ++ runningCats (acc ++ xs.flatten) ys := by
  induction xs generalizing acc with
  | nil => simp [runningCats]
  | cons x xs ih =>
    simp only [List.cons_append, runningCats, List.append_eq, ih (acc ++ x),
      List.flatten_cons, List.append_assoc]

lemma processLines_trace (ls : List (List Char)) (st : DecodeState)
    (h1 : st.applied = runningCats [] st.deltas)
    (h2 : st.fullResponse = st.deltas.flatten) :
    (processLines ls st).applied = runningCats [] (processLines ls st).deltas ∧
      (processLines ls st).fullResponse = (processLines ls st).deltas.flatten := by
  induction ls generalizing st with
  | nil => exact ⟨h1, h2⟩
  | cons line rest ih =>
    unfold processLines
    by_cases hskip : trimChars line = [] ∨ dataPfx.isPrefixOf line = false
    · rw [if_pos hskip]
      exact ih st h1 h2
    · rw [if_neg hskip]
      by_cases hdone : trimChars (line.drop 6) = doneChars
      · rw [if_pos hdone]
        exact ⟨h1, h2⟩
      · rw [if_neg hdone]
        cases hcd : contentDelta (line.drop 6) with
        | none => exact ih st h1 h2
        | some c =>
          apply ih
          · simp only [h1, h2, runningCats_append, runningCats, List.flatten_nil,
              List.nil_append, List.append_nil]
          · simp [h2]

lemma processChunk_trace (st : DecodeState) (chunk : List Char)
    (h1 : st.applied = runningCats [] st.deltas)
    (h2 : st.fullResponse = st.deltas.flatten) :
    (processChunk st chunk).applied = runningCats [] (processChunk st chunk).deltas ∧
      (processChunk st chunk).fullResponse = (processChunk st chunk).deltas.flatten := by
  unfold processChunk
  exact processLines_trace _ _ h1 h2

lemma foldl_processChunk_trace (chunks : List (List Char)) (st : DecodeState)
    (h1 : st.applied = runningCats [] st.deltas)
    (h2 : st.fullResponse = st.deltas.flatten) :
    (chunks.foldl processChunk st).applied
        = runningCats [] (chunks.foldl processChunk st).deltas ∧
      (chunks.foldl processChunk st).fullResponse
        = (chunks.foldl processChunk st).deltas.flatten := by
  induction chunks generalizing st with
  | nil => exact ⟨h1, h2⟩
  | cons c rest ih =>
    have step := processChunk_trace st c h1 h2
    exact ih (processChunk st c) step.1 step.2

lemma chain_runningCats (acc : List Char) (ds : List (List Char)) :
    List.Chain' (fun a b => ∃ t, a ++ t = b) (runningCats acc ds) := by
  induction ds generalizing acc with
  | nil => simp [runningCats]
  | cons d ds ih =>
    cases ds with
    | nil => simp [runningCats]
    | cons d2 ds2 =>
      rw [runningCats, runningCats, List.chain'_cons]
      refine ⟨⟨d2, rfl⟩, ?_⟩
      have := ih (acc ++ d)
      rwa [runningCats] at this

/-- Claim C7: the cumulative texts handed to the store grow monotonically —
each is a prefix of the next — and they are exactly the running
concatenations of the decoded deltas in decode order, with no reordering or
coalescing beyond concatenation. -/
theorem C7_monotone_growth (chunks : List (List Char)) (msgs : List ChatMessage) :
    (runDecoder chunks msgs).applied = runningCats [] ((runDecoder chunks msgs).deltas) ∧
      List.Chain' (fun a b => ∃ t, a ++ t = b) ((runDecoder chunks msgs).applied) := by
  have h := foldl_processChunk_trace chunks (initDecodeState msgs) rfl rfl
  exact ⟨h.1, h.1 ▸ chain_runningCats [] _⟩

/-- Hexadecimal digit character for a value below 16. -/
def hexDig : Nat → Char
  | 0 => '0' | 1 => '1' | 2 => '2' | 3 => '3'
  | 4 => '4' | 5 => '5' | 6 => '6' | 7 => '7'
  | 8 => '8' | 9 => '9' | 10 => 'a' | 11 => 'b'
  | 12 => 'c' | 13 => 'd' | 14 => 'e' | 15 => 'f'
  | _ => '0'

lemma hexVal_hexDig (n : Nat) (h : n < 16) : hexVal (hexDig n) = some n := by
  interval_cases n <;> decide

/-- Canonical JSON escaping of one character of a string value. -/
def escChar (c : Char) : List Char :=
  if c = '"' then ['\\', '"']
  else if c = '\\' then ['\\', '\\']
  else if c = '\n' then ['\\', 'n']
  else if c = '\r' then ['\\', 'r']
  else if c = '\t' then ['\\', 't']
  else if c.toNat < 32 then ['\\', 'u', '0', '0', hexDig (c.toNat / 16), hexDig (c.toNat % 16)]
  else [c]

/-- Canonical JSON escaping of the body of a string value. -/
def escBody (s : List Char) : List Char := (s.map escChar).flatten

/-- Canonical JSON string literal for a string value, quotes included. -/
def encStr (s : List Char) : List Char := '"' :: (escBody s ++ ['"'])

lemma parseStringBody_escBody (s rest : List Char) :
    parseStringBody (escBody s ++ '"' :: rest) = some (s, rest) := by
  induction s with
  | nil =>
    show parseStringBody (escBody [] ++ '"' :: rest) = some ([], rest)
    rw [show escBody [] ++ '"' :: rest = '"' :: rest by simp [escBody]]
    rw [parseStringBody.eq_def]
    simp
  | cons c cs ih =>
    have hb : escBody (c :: cs) ++ '"' :: rest
        = escChar c ++ (escBody cs ++ '"' :: rest) := by
      simp [escBody]
    rw [hb]
    unfold escChar
    by_cases h1 : c = '"'
    · subst h1
      rw [if_pos rfl]
      rw [show (['\\', '"'] : List Char) ++ (escBody cs ++ '"' :: rest)
        = '\\' :: '"' :: (escBody cs ++ '"' :: rest) by simp]
      rw [parseStringBody.eq_def]
      simp [unescapeChar, ih]
    · rw [if_neg h1]
      by_cases h2 : c = '\\'
      · subst h2
        rw [if_pos rfl]
        rw [show (['\\', '\\'] : List Char) ++ (escBody cs ++ '"' :: rest)
          = '\\' :: '\\' :: (escBody cs ++ '"' :: rest) by simp]
        rw [parseStringBody.eq_def]
        simp [unescapeChar, ih]
      · rw [if_neg h2]
        by_cases h3 : c = '\n'
        · subst h3
          rw [if_pos rfl]
          rw [show (['\\', 'n'] : List Char) ++ (escBody cs ++ '"' :: rest)
            = '\\' :: 'n' :: (escBody cs ++ '"' :: rest) by simp]
          rw [parseStringBody.eq_def]
          simp [unescapeChar, ih]
        · rw [if_neg h3]
          by_cases h4 : c = '\r'
          · subst h4
            rw [if_pos rfl]
            rw [show (['\\', 'r'] : List Char) ++ (escBody cs ++ '"' :: rest)
              = '\\' :: 'r' :: (escBody cs ++ '"' :: rest) by simp]
            rw [parseStringBody.eq_def]
            simp [unescapeChar, ih]
          · rw [if_neg h4]
            by_cases h5 : c = '\t'
            · subst h5
              rw [if_pos rfl]
              rw [show (['\\', 't'] : List Char) ++ (escBody cs ++ '"' :: rest)
                = '\\' :: 't' :: (escBody cs ++ '"' :: rest) by simp]
              rw [parseStringBody.eq_def]
              simp [unescapeChar, ih]
            · rw [if_neg h5]
              by_cases h6 : c.toNat < 32
              · rw [if_pos h6]
                have hd1 : hexVal (hexDig (c.toNat / 16)) = some (c.toNat / 16) :=
                  hexVal_hexDig _ (by omega)
                have hd2 : hexVal (hexDig (c.toNat % 16)) = some (c.toNat % 16) :=
                  hexVal_hexDig _ (by omega)
                have h0 : hexVal '0' = some 0 := by decide
                rw [show (['\\', 'u', '0', '0', hexDig (c.toNat / 16), hexDig (c.toNat % 16)] : List Char)
                      ++ (escBody cs ++ '"' :: rest)
                    = '\\' :: 'u' :: '0' :: '0' :: hexDig (c.toNat / 16) :: hexDig (c.toNat % 16)
                      :: (escBody cs ++ '"' :: rest) by simp]
                rw [parseStringBody.eq_def]
                simp only [h0, hd1, hd2, ih, Nat.mul_zero, Nat.zero_add, Nat.div_add_mod,
                  Char.ofNat_toNat]
                simp
              · rw [if_neg h6]
                rw [show ([c] : List Char) ++ (escBody cs ++ '"' :: rest)
                  = c :: (escBody cs ++ '"' :: rest) by simp]
                rw [parseStringBody.eq_def]
                simp [h1, h2, h6, ih]

lemma parseStringBody_plain (k rest : List Char)
    (hk : ∀ c ∈ k, c ≠ '"' ∧ c ≠ '\\' ∧ 32 ≤ c.toNat) :
    parseStringBody (k ++ '"' :: rest) = some (k, rest) := by
  induction k with
  | nil =>
    rw [List.nil_append, parseStringBody.eq_def]
    simp
  | cons c cs ih =>
    obtain ⟨h1, h2, h3⟩ := hk c (by simp)
    have hrec := ih (fun c hc => hk c (by simp [hc]))
    rw [List.cons_append, parseStringBody.eq_def]
    simp [h1, h2, Nat.not_lt.mpr h3, hrec]

/-- JSON value of a well-formed content event whose delta content is `v`. -/
def contentJsonOf (v : List Char) : Json :=
  Json.obj [("choices".data,
    Json.arr [Json.obj [("delta".data, Json.obj [("content".data, Json.str v)])]])]

lemma parseValue_objSkeleton (f : Nat) (wtail v rest : List Char)
    (hw : parseStringBody wtail = some (v, "\x7d\x7d]\x7d".data ++ rest)) :
    parseValue (f + 13)
        ("\x7b\"choices\":[\x7b\"delta\":\x7b\"content\":".data ++ ('"' :: wtail))
      = some (contentJsonOf v, rest) := by
  have hk1 : ∀ t : List Char,
      parseStringBody ('c' :: 'h' :: 'o' :: 'i' :: 'c' :: 'e' :: 's' :: '"' :: t)
        = some ("choices".data, t) := by
    intro t
    have h := parseStringBody_plain ("choices".data) t (by decide)
    simpa using h
  have hk2 : ∀ t : List Char,
      parseStringBody ('d' :: 'e' :: 'l' :: 't' :: 'a' :: '"' :: t)
        = some ("delta".data, t) := by
    intro t
    have h := parseStringBody_plain ("delta".data) t (by decide)
    simpa using h
  have hk3 : ∀ t : List Char,
      parseStringBody ('c' :: 'o' :: 'n' :: 't' :: 'e' :: 'n' :: 't' :: '"' :: t)
        = some ("content".data, t) := by
    intro t
    have h := parseStringBody_plain ("content".data) t (by decide)
    simpa using h
  rw [parseValue.eq_def]
  simp only [skipWs, List.dropWhile_cons]
  simp [wsChar, hk1, hk2, hk3, hw, contentJsonOf]
  rw [parseObjBody.eq_def]
  simp [skipWs, List.dropWhile_cons, wsChar, hk1, hk2, hk3, hw, contentJsonOf]
  rw [parseMembers.eq_def]
  simp [skipWs, List.dropWhile_cons, wsChar, hk1, hk2, hk3, hw, contentJsonOf]
  rw [parseValue.eq_def]
  simp [skipWs, List.dropWhile_cons, wsChar, hk1, hk2, hk3, hw, contentJsonOf]
  rw [parseArrBody.eq_def]
  simp [skipWs, List.dropWhile_cons, wsChar, hk1, hk2, hk3, hw, contentJsonOf]
  rw [parseElems.eq_def]
  simp [skipWs, List.dropWhile_cons, wsChar, hk1, hk2, hk3, hw, contentJsonOf]
  rw [parseValue.eq_def]
  simp [skipWs, List.dropWhile_cons, wsChar, hk1, hk2, hk3, hw, contentJsonOf]
  rw [parseObjBody.eq_def]
  simp [skipWs, List.dropWhile_cons, wsChar, hk1, hk2, hk3, hw, contentJsonOf]
  rw [parseMembers.eq_def]
  simp [skipWs, List.dropWhile_cons, wsChar, hk1, hk2, hk3, hw, contentJsonOf]
  rw [parseValue.eq_def]
  simp [skipWs, List.dropWhile_cons, wsChar, hk1, hk2, hk3, hw, contentJsonOf]
  rw [parseObjBody.eq_def]
  simp [skipWs, List.dropWhile_cons, wsChar, hk1, hk2, hk3, hw, contentJsonOf]
  rw [parseMembers.eq_def]
  simp [skipWs, List.dropWhile_cons, wsChar, hk1, hk2, hk3, hw, contentJsonOf]
  rw [parseValue.eq_def]
  simp [skipWs, List.dropWhile_cons, wsChar, hk1, hk2, hk3, hw, contentJsonOf]

/-- The canonical JSON text of a content event whose delta content is `s`:
`\x7b"choices":[\x7b"delta":\x7b"content":<enc s>\x7d\x7d]\x7d`. -/
def objChars (s : List Char) : List Char :=
  "\x7b\"choices\":[\x7b\"delta\":\x7b\"content\":".data ++ encStr s ++ "\x7d\x7d]\x7d".data

lemma parseValue_objChars (f : Nat) (s rest : List Char) :
    parseValue (f + 13) (objChars s ++ rest) = some (contentJsonOf s, rest) := by
  have hsplit : objChars s ++ rest
      = "\x7b\"choices\":[\x7b\"delta\":\x7b\"content\":".data
        ++ ('"' :: (escBody s ++ '"' :: ("\x7d\x7d]\x7d".data ++ rest))) := by
    simp [objChars, encStr]
  rw [hsplit]
  exact parseValue_objSkeleton f _ s rest (parseStringBody_escBody s _)

lemma length_objChars (s : List Char) : 13 ≤ (objChars s).length := by
  simp [objChars]

lemma jsonParse_objChars (s : List Char) : jsonParse (objChars s) = some (contentJsonOf s) := by
  unfold jsonParse
  have h13 := length_objChars s
  have hfuel : (objChars s).length + 1 = ((objChars s).length - 12) + 13 := by omega
  have hmain := parseValue_objChars ((objChars s).length - 12) s []
  rw [List.append_nil] at hmain
  rw [hfuel, hmain]
  simp [skipWs]

lemma extractContent_contentJsonOf (v : List Char) :
    extractContent (contentJsonOf v) = some (Json.str v) := rfl

lemma contentDelta_objChars (s : List Char) :
    contentDelta (objChars s) = if s = [] then none else some s := by
  unfold contentDelta
  rw [jsonParse_objChars]
  by_cases hs : s = []
  · simp [extractContent_contentJsonOf, hs, jsTruthy]
  · simp [extractContent_contentJsonOf, hs, jsTruthy, jsCoerce]

lemma trimChars_head (c : Char) (cs : List Char) (h : wsChar c = false) :
    ∃ ys, trimChars (c :: cs) = c :: ys := by
  unfold trimChars
  rw [List.dropWhile_cons_of_neg (by simp [h])]
  rw [List.reverse_cons, List.dropWhile_append]
  by_cases he : (List.dropWhile wsChar cs.reverse).isEmpty
  · rw [if_pos he]
    rw [List.dropWhile_cons_of_neg (by simp [h])]
    exact ⟨[], by simp⟩
  · rw [if_neg he]
    exact ⟨(List.dropWhile wsChar cs.reverse).reverse, by simp⟩

lemma trimChars_ne_nil_of_head (c : Char) (cs : List Char) (h : wsChar c = false) :
    trimChars (c :: cs) ≠ [] := by
  obtain ⟨ys, hy⟩ := trimChars_head c cs h
  simp [hy]

lemma isPrefixOf_append_self (p t : List Char) : p.isPrefixOf (p ++ t) = true := by
  induction p with
  | nil => simp [List.isPrefixOf]
  | cons c cs ih => simp [List.isPrefixOf, ih]

/-- A complete `data: ` content event line carrying delta content `s`. -/
def contentLine (s : List Char) : List Char := "data: ".data ++ objChars s

/-- The sentinel line `data: [DONE]`. -/
def doneLine : List Char := "data: [DONE]".data

/-- Raw stream text of a list of lines, each terminated by a newline. -/
def mkStream (ls : List (List Char)) : List Char :=
  (ls.map (fun l => l ++ ['\n'])).flatten

lemma drop6_data_line (t : List Char) : ("data: ".data ++ t).drop 6 = t := by
  rw [show (6 : Nat) = ("data: ".data).length by decide]
  exact List.drop_left _ _

lemma contentLine_head : ∀ s, ∃ t, contentLine s = 'd' :: t := by
  intro s
  exact ⟨"ata: ".data ++ objChars s, by simp [contentLine]⟩

lemma objChars_head (s : List Char) :
    objChars s = '\x7b' :: ("\"choices\":[\x7b\"delta\":\x7b\"content\":".data
      ++ encStr s ++ "\x7d\x7d]\x7d".data) := by
  simp [objChars]

lemma trimChars_objChars_ne_done (s : List Char) : trimChars (objChars s) ≠ doneChars := by
  rw [objChars_head]
  obtain ⟨ys, hy⟩ := trimChars_head '\x7b' _ (by decide)
  rw [hy]
  intro he
  have h3 := congrArg (fun l => l.head?) he
  simp only [doneChars] at h3
  simp at h3

lemma processLines_cons_eq (line : List Char) (rest : List (List Char)) (st : DecodeState) :
    processLines (line :: rest) st
      = if trimChars line = [] ∨ dataPfx.isPrefixOf line = false then processLines rest st
        else if trimChars (line.drop 6) = doneChars then st
        else
          match contentDelta (line.drop 6) with
          | none => processLines rest st
          | some c =>
            processLines rest
              { st with
                fullResponse := st.fullResponse ++ c
                messages := setLastContent st.messages (st.fullResponse ++ c)
                applied := st.applied ++ [st.fullResponse ++ c]
                deltas := st.deltas ++ [c] } := by
  rw [processLines.eq_def]

lemma processLines_contentLine_ne (s : List Char) (rest : List (List Char)) (st : DecodeState)
    (hs : s ≠ []) :
    processLines (contentLine s :: rest) st
      = processLines rest
        { st with
          fullResponse := st.fullResponse ++ s
          messages := setLastContent st.messages (st.fullResponse ++ s)
          applied := st.applied ++ [st.fullResponse ++ s]
          deltas := st.deltas ++ [s] } := by
  have hne : ¬ (trimChars (contentLine s) = [] ∨ dataPfx.isPrefixOf (contentLine s) = false) := by
    rintro (h1 | h2)
    · obtain ⟨t, ht⟩ := contentLine_head s
      rw [ht] at h1
      exact trimChars_ne_nil_of_head _ _ (by decide) h1
    · rw [show contentLine s = dataPfx ++ objChars s by simp [contentLine, dataPfx]] at h2
      rw [isPrefixOf_append_self] at h2
      exact Bool.noConfusion h2
  rw [processLines_cons_eq, if_neg hne]
  have hdrop : (contentLine s).drop 6 = objChars s := drop6_data_line _
  rw [hdrop, if_neg (trimChars_objChars_ne_done s), contentDelta_objChars, if_neg hs]

lemma processLines_contentLine_nil (rest : List (List Char)) (st : DecodeState) :
    processLines (contentLine [] :: rest) st = processLines rest st := by
  have hne : ¬ (trimChars (contentLine []) = [] ∨ dataPfx.isPrefixOf (contentLine []) = false) := by
    rintro (h1 | h2)
    · obtain ⟨t, ht⟩ := contentLine_head []
      rw [ht] at h1
      exact trimChars_ne_nil_of_head _ _ (by decide) h1
    · rw [show contentLine [] = dataPfx ++ objChars [] by simp [contentLine, dataPfx]] at h2
      rw [isPrefixOf_append_self] at h2
      exact Bool.noConfusion h2
  rw [processLines_cons_eq, if_neg hne]
  have hdrop : (contentLine []).drop 6 = objChars [] := drop6_data_line _
  rw [hdrop, if_neg (trimChars_objChars_ne_done []), contentDelta_objChars, if_pos rfl]

lemma processLines_doneLine (rest : List (List Char)) (st : DecodeState) :
    processLines (doneLine :: rest) st = st := by
  rw [processLines_cons_eq, if_neg (by decide)]
  rw [show trimChars (doneLine.drop 6) = doneChars by decide, if_pos rfl]

lemma splitNl_noNl_append (l t : List Char) (h : '\n' ∉ l) :
    splitNl (l ++ '\n' :: t) = l :: splitNl t := by
  induction l with
  | nil => simp [splitNl]
  | cons c cs ih =>
    have hc : c ≠ '\n' := fun he => h (by simp [he])
    have hrec := ih (fun hm => h (by simp [hm]))
    rw [List.cons_append, splitNl, if_neg hc, hrec]

lemma splitNl_ne_nil (l : List Char) : splitNl l ≠ [] := by
  induction l with
  | nil => simp [splitNl]
  | cons c cs ih =>
    rw [splitNl]
    by_cases hc : c = '\n'
    · simp [hc]
    · rw [if_neg hc]
      cases hs : splitNl cs with
      | nil => simp
      | cons p ps => simp

lemma splitNl_mkStream (ls : List (List Char)) (h : ∀ l ∈ ls, '\n' ∉ l) :
    splitNl (mkStream ls) = ls ++ [[]] := by
  induction ls with
  | nil => simp [mkStream, splitNl]
  | cons l ls ih =>
    have h1 : '\n' ∉ l := h l (by simp)
    have h2 := ih (fun x hx => h x (by simp [hx]))
    have : mkStream (l :: ls) = l ++ '\n' :: mkStream ls := by
      simp [mkStream]
    rw [this, splitNl_noNl_append _ _ h1, h2]
    simp

lemma hexDig_ne_nl (n : Nat) : hexDig n ≠ '\n' := by
  unfold hexDig
  split <;> decide

lemma escChar_no_nl (c : Char) : '\n' ∉ escChar c := by
  unfold escChar
  by_cases h1 : c = '"'
  · simp [h1]
  · rw [if_neg h1]
    by_cases h2 : c = '\\'
    · simp [h2]
    · rw [if_neg h2]
      by_cases h3 : c = '\n'
      · simp [h3]
      · rw [if_neg h3]
        by_cases h4 : c = '\r'
        · simp [h4]
        · rw [if_neg h4]
          by_cases h5 : c = '\t'
          · simp [h5]
          · rw [if_neg h5]
            by_cases h6 : c.toNat < 32
            · rw [if_pos h6]
              intro hm
              simp only [List.mem_cons, List.not_mem_nil, or_false] at hm
              rcases hm with h | h | h | h | h | h
              · exact absurd h (by decide)
              · exact absurd h (by decide)
              · exact absurd h (by decide)
              · exact absurd h (by decide)
              · exact hexDig_ne_nl _ h.symm
              · exact hexDig_ne_nl _ h.symm
            · rw [if_neg h6]
              intro hm
              simp at hm
              subst hm
              exact h6 (by decide)

lemma escBody_no_nl (s : List Char) : '\n' ∉ escBody s := by
  induction s with
  | nil => simp [escBody]
  | cons c cs ih =>
    intro hm
    rw [show escBody (c :: cs) = escChar c ++ escBody cs by simp [escBody]] at hm
    rcases List.mem_append.mp hm with h | h
    · exact escChar_no_nl c h
    · exact ih h

lemma contentLine_no_nl (s : List Char) : '\n' ∉ contentLine s := by
  intro hm
  simp [contentLine, objChars, encStr] at hm
  exact escBody_no_nl s hm

/-- Raw stream text of a sequence of complete content lines followed by the
`data: [DONE]` line, each line newline-terminated. -/
def contentStream (ss : List (List Char)) : List Char :=
  mkStream (ss.map contentLine ++ [doneLine])

lemma processLines_content_done (ss : List (List Char)) (st : DecodeState) :
    (processLines (ss.map contentLine ++ [doneLine]) st).fullResponse
      = st.fullResponse ++ ss.flatten := by
  induction ss generalizing st with
  | nil =>
    rw [List.map_nil, List.nil_append, processLines_doneLine]
    simp
  | cons s ss ih =>
    rw [List.map_cons, List.cons_append]
    by_cases hs : s = []
    · subst hs
      rw [processLines_contentLine_nil, ih]
      simp
    · rw [processLines_contentLine_ne _ _ _ hs, ih]
      simp

/-- Claim C1: for a stream of complete `data: ` content lines followed by
`data: [DONE]`, delivered to the decoder loop, the final `fullResponse`
equals the concatenation of the content values in order. -/
theorem C1_decoder_concatenation (ss : List (List Char)) (msgs : List ChatMessage) :
    (runDecoder [contentStream ss] msgs).fullResponse = ss.flatten := by
  unfold runDecoder
  rw [List.foldl_cons, List.foldl_nil]
  unfold processChunk
  have hnl : ∀ l ∈ ss.map contentLine ++ [doneLine], '\n' ∉ l := by
    intro l hl
    rcases List.mem_append.mp hl with h | h
    · obtain ⟨s, _, rfl⟩ := List.mem_map.mp h
      exact contentLine_no_nl s
    · rw [List.mem_singleton.mp h]
      decide
  have hsplit : splitNl ((initDecodeState msgs).buffer ++ contentStream ss)
      = (ss.map contentLine ++ [doneLine]) ++ [[]] := by
    rw [show (initDecodeState msgs).buffer = [] from rfl, List.nil_append]
    exact splitNl_mkStream _ hnl
  rw [hsplit, List.dropLast_concat, List.getLast?_concat]
  rw [processLines_content_done]
  rfl

/-- Whether a complete line is the `[DONE]` sentinel as the decoder tests
it: a non-blank `data: ` line whose trimmed payload is `[DONE]`. -/
def lineIsDone (l : List Char) : Bool :=
  if trimChars l = [] ∨ dataPfx.isPrefixOf l = false then false
  else if trimChars (l.drop 6) = doneChars then true else false

/-- The delta text a single processed line appends to `fullResponse`
(empty for skipped, sentinel and contentless lines). -/
def lineDeltaOf (l : List Char) : List Char :=
  if trimChars l = [] ∨ dataPfx.isPrefixOf l = false then []
  else if trimChars (l.drop 6) = doneChars then []
  else (contentDelta (l.drop 6)).getD []

/-- Concatenated deltas of a list of lines, ignoring the sentinel stop. -/
def allDeltas (ls : List (List Char)) : List Char := (ls.map lineDeltaOf).flatten

/-- No line carrying a delta occurs after a `[DONE]` sentinel line. -/
def noDeltaAfterDone : List (List Char) → Bool
  | [] => true
  | l :: rest =>
    ((!lineIsDone l) || rest.all (fun x => lineDeltaOf x = [])) && noDeltaAfterDone rest

/-- The complete (newline-terminated) lines of a stream text. -/
def completeLines (cs : List Char) : List (List Char) := (splitNl cs).dropLast

/-- The final, possibly incomplete line fragment of a stream text. -/
def lastFrag (cs : List Char) : List Char := ((splitNl cs).getLast?).getD []

/-- Prepend a prefix to the first fragment of a split. -/
def glueFirst (pre : List Char) : List (List Char) → List (List Char)
  | [] => [pre]
  | x :: xs => (pre ++ x) :: xs

lemma glueFirst_ne_nil (pre : List Char) (ls : List (List Char)) :
    glueFirst pre ls ≠ [] := by
  cases ls <;> simp [glueFirst]

lemma glueFirst_glueFirst (a b : List Char) (ls : List (List Char)) :
    glueFirst a (glueFirst b ls) = glueFirst (a ++ b) ls := by
  cases ls <;> simp [glueFirst]

lemma splitNl_cons_ne (c : Char) (l : List Char) (h : c ≠ '\n') :
    splitNl (c :: l) = glueFirst [c] (splitNl l) := by
  rw [splitNl, if_neg h]
  cases hs : splitNl l with
  | nil => simp [glueFirst]
  | cons p ps => simp [glueFirst]

lemma splitNl_append (a b : List Char) :
    splitNl (a ++ b) = (splitNl a).dropLast ++ glueFirst (lastFrag a) (splitNl b) := by
  induction a with
  | nil =>
    rw [List.nil_append]
    rw [show splitNl ([] : List Char) = [[]] from rfl]
    cases hs : splitNl b with
    | nil => exact absurd hs (splitNl_ne_nil b)
    | cons p ps =>
      simp [lastFrag, glueFirst, show splitNl ([] : List Char) = [[]] from rfl]
  | cons c a ih =>
    by_cases hc : c = '\n'
    · subst hc
      rw [List.cons_append]
      rw [show splitNl ('\n' :: (a ++ b)) = [] :: splitNl (a ++ b) from by
        rw [splitNl, if_pos rfl]]
      rw [show splitNl ('\n' :: a) = [] :: splitNl a from by rw [splitNl, if_pos rfl]]
      obtain ⟨p, ps, hps⟩ : ∃ p ps, splitNl a = p :: ps := by
        cases hs : splitNl a with
        | nil => exact absurd hs (splitNl_ne_nil a)
        | cons p ps => exact ⟨p, ps, rfl⟩
      rw [ih, hps]
      simp [lastFrag, hps, show splitNl ('\n' :: a) = [] :: splitNl a from by
        rw [splitNl, if_pos rfl], List.getLast?_cons_cons]
    · rw [List.cons_append, splitNl_cons_ne c _ hc, splitNl_cons_ne c _ hc, ih]
      obtain ⟨p, ps, hps⟩ : ∃ p ps, splitNl a = p :: ps := by
        cases hs : splitNl a with
        | nil => exact absurd hs (splitNl_ne_nil a)
        | cons p ps => exact ⟨p, ps, rfl⟩
      rw [hps]
      cases ps with
      | nil =>
        simp only [List.dropLast_single, List.nil_append]
        rw [show lastFrag a = p by simp [lastFrag, hps]]
        rw [glueFirst_glueFirst]
        rw [show lastFrag (c :: a) = [c] ++ p by
          simp [lastFrag, splitNl_cons_ne c _ hc, hps, glueFirst]]
        rw [show glueFirst [c] [p] = [[c] ++ p] from rfl]
        simp
      | cons q qs =>
        simp only [glueFirst, List.cons_append]
        rw [show lastFrag (c :: a) = lastFrag a by
          simp [lastFrag, splitNl_cons_ne c _ hc, hps, glueFirst, List.getLast?_cons_cons]]
        simp [List.dropLast_cons₂]

lemma splitNl_mem_no_nl (cs : List Char) : ∀ l ∈ splitNl cs, '\n' ∉ l := by
  induction cs with
  | nil =>
    intro l hl
    rw [show splitNl ([] : List Char) = [[]] from rfl] at hl
    simp at hl
    simp [hl]
  | cons c rest ih =>
    intro l hl
    by_cases hc : c = '\n'
    · subst hc
      rw [show splitNl ('\n' :: rest) = [] :: splitNl rest from by rw [splitNl, if_pos rfl]] at hl
      rcases List.mem_cons.mp hl with h | h
      · simp [h]
      · exact ih l h
    · rw [splitNl_cons_ne c _ hc] at hl
      obtain ⟨p, ps, hps⟩ : ∃ p ps, splitNl rest = p :: ps := by
        cases hs : splitNl rest with
        | nil => exact absurd hs (splitNl_ne_nil rest)
        | cons p ps => exact ⟨p, ps, rfl⟩
      rw [hps] at hl
      rcases List.mem_cons.mp hl with h | h
      · subst h
        intro hm
        rcases List.mem_cons.mp (by simpa [glueFirst] using hm) with h2 | h2
        · exact hc h2.symm
        · exact ih p (by simp [hps]) h2
      · exact ih l (by simp [hps, h])

lemma lastFrag_no_nl (cs : List Char) : '\n' ∉ lastFrag cs := by
  unfold lastFrag
  cases hg : (splitNl cs).getLast? with
  | none => simp
  | some l =>
    have hm : l ∈ splitNl cs := List.mem_of_mem_getLast? hg
    simpa using splitNl_mem_no_nl cs l hm

lemma splitNl_noNl_single (l : List Char) (h : '\n' ∉ l) : splitNl l = [l] := by
  induction l with
  | nil => rfl
  | cons c cs ih =>
    have hc : c ≠ '\n' := fun he => h (by simp [he])
    rw [splitNl_cons_ne c _ hc, ih (fun hm => h (by simp [hm]))]
    simp [glueFirst]

lemma allDeltas_append (xs ys : List (List Char)) :
    allDeltas (xs ++ ys) = allDeltas xs ++ allDeltas ys := by
  simp [allDeltas]

lemma noDeltaAfterDone_cons (l : List Char) (rest : List (List Char)) :
    noDeltaAfterDone (l :: rest) = true
      ↔ ((lineIsDone l = true → ∀ x ∈ rest, lineDeltaOf x = [])
          ∧ noDeltaAfterDone rest = true) := by
  rw [noDeltaAfterDone]
  rw [Bool.and_eq_true, Bool.or_eq_true, Bool.not_eq_true']
  constructor
  · rintro ⟨h1 | h1, h2⟩
    · exact ⟨fun hd => absurd hd (by simp [h1]), h2⟩
    · exact ⟨fun _ => by simpa [List.all_eq_true] using h1, h2⟩
  · rintro ⟨h1, h2⟩
    refine ⟨?_, h2⟩
    by_cases hd : lineIsDone l = true
    · exact Or.inr (by simpa [List.all_eq_true] using h1 hd)
    · exact Or.inl (by simpa using hd)

lemma noDeltaAfterDone_sublist {l1 l2 : List (List Char)} (h : l1.Sublist l2)
    (H : noDeltaAfterDone l2 = true) : noDeltaAfterDone l1 = true := by
  induction h with
  | slnil => rfl
  | cons a hsub ih =>
    rw [noDeltaAfterDone_cons] at H
    exact ih H.2
  | cons₂ a hsub ih =>
    rw [noDeltaAfterDone_cons] at H ⊢
    exact ⟨fun hd x hx => H.1 hd x (hsub.subset hx), ih H.2⟩

lemma processLines_full_of_noDelta (ls : List (List Char)) (st : DecodeState)
    (H : noDeltaAfterDone ls = true) :
    (processLines ls st).fullResponse = st.fullResponse ++ allDeltas ls := by
  induction ls generalizing st with
  | nil => simp [processLines, allDeltas]
  | cons l rest ih =>
    rw [noDeltaAfterDone_cons] at H
    obtain ⟨Hhead, Hrest⟩ := H
    rw [processLines_cons_eq]
    by_cases h1 : trimChars l = [] ∨ dataPfx.isPrefixOf l = false
    · rw [if_pos h1, ih _ Hrest]
      have : lineDeltaOf l = [] := by simp [lineDeltaOf, h1]
      simp [allDeltas, this]
    · rw [if_neg h1]
      by_cases h2 : trimChars (l.drop 6) = doneChars
      · rw [if_pos h2]
        have hdone : lineIsDone l = true := by simp [lineIsDone, h1, h2]
        have hall : allDeltas (l :: rest) = [] := by
          rw [show allDeltas (l :: rest) = lineDeltaOf l ++ allDeltas rest by
            simp [allDeltas]]
          rw [show lineDeltaOf l = [] by simp [lineDeltaOf, h1, h2]]
          rw [List.nil_append]
          rw [allDeltas, List.flatten_eq_nil_iff]
          intro x hx
          obtain ⟨y, hy, rfl⟩ := List.mem_map.mp hx
          exact Hhead hdone y hy
        rw [hall, List.append_nil]
      · rw [if_neg h2]
        cases hcd : contentDelta (l.drop 6) with
        | none =>
          rw [ih _ Hrest]
          have : lineDeltaOf l = [] := by simp [lineDeltaOf, h1, h2, hcd]
          simp [allDeltas, this]
        | some c =>
          rw [ih _ Hrest]
          have : lineDeltaOf l = c := by simp [lineDeltaOf, h1, h2, hcd]
          simp [allDeltas, this, List.append_assoc]

lemma completeLines_append (a b : List Char) :
    completeLines (a ++ b)
      = completeLines a ++ (glueFirst (lastFrag a) (splitNl b)).dropLast := by
  unfold completeLines
  rw [splitNl_append]
  exact List.dropLast_append_of_ne_nil _ (glueFirst_ne_nil _ _)

lemma lastFrag_append (a b : List Char) : lastFrag (a ++ b)
    = ((glueFirst (lastFrag a) (splitNl b)).getLast?).getD [] := by
  unfold lastFrag
  rw [splitNl_append]
  rw [List.getLast?_append_of_ne_nil _ (glueFirst_ne_nil _ _)]
  rfl

lemma processLines_buffer (ls : List (List Char)) (st : DecodeState) :
    (processLines ls st).buffer = st.buffer := by
  induction ls generalizing st with
  | nil => rfl
  | cons l rest ih =>
    rw [processLines_cons_eq]
    by_cases h1 : trimChars l = [] ∨ dataPfx.isPrefixOf l = false
    · rw [if_pos h1]
      exact ih st
    · rw [if_neg h1]
      by_cases h2 : trimChars (l.drop 6) = doneChars
      · rw [if_pos h2]
      · rw [if_neg h2]
        cases contentDelta (l.drop 6) with
        | none => exact ih st
        | some c => exact ih _

lemma processChunk_invariant (st : DecodeState) (chunk consumed : List Char)
    (hbuf : st.buffer = lastFrag consumed)
    (hfull : st.fullResponse = allDeltas (completeLines consumed))
    (H : noDeltaAfterDone (completeLines (consumed ++ chunk)) = true) :
    (processChunk st chunk).buffer = lastFrag (consumed ++ chunk) ∧
      (processChunk st chunk).fullResponse = allDeltas (completeLines (consumed ++ chunk)) := by
  have hsingle : splitNl st.buffer = [st.buffer] :=
    splitNl_noNl_single _ (hbuf ▸ lastFrag_no_nl consumed)
  have hlf : lastFrag st.buffer = st.buffer := by
    unfold lastFrag
    rw [hsingle]
    rfl
  have hbc : splitNl (st.buffer ++ chunk) = glueFirst (lastFrag consumed) (splitNl chunk) := by
    rw [splitNl_append, hsingle, hlf, hbuf]
    simp
  have hlines : completeLines (consumed ++ chunk)
      = completeLines consumed ++ (splitNl (st.buffer ++ chunk)).dropLast := by
    rw [completeLines_append, hbc]
  have hsub : noDeltaAfterDone ((splitNl (st.buffer ++ chunk)).dropLast) = true := by
    refine noDeltaAfterDone_sublist ?_ H
    rw [hlines]
    exact List.sublist_append_right _ _
  constructor
  · show (processLines _ _).buffer = _
    rw [processLines_buffer]
    rw [lastFrag_append, hbc]
  · show (processLines _ _).fullResponse = _
    rw [processLines_full_of_noDelta _ _ hsub]
    rw [hlines, allDeltas_append]
    simp [hfull]

lemma foldl_processChunk_invariant (chunks : List (List Char)) (st : DecodeState)
    (consumed : List Char)
    (hbuf : st.buffer = lastFrag consumed)
    (hfull : st.fullResponse = allDeltas (completeLines consumed))
    (H : noDeltaAfterDone (completeLines (consumed ++ chunks.flatten)) = true) :
    (chunks.foldl processChunk st).fullResponse
      = allDeltas (completeLines (consumed ++ chunks.flatten)) := by
  induction chunks generalizing st consumed with
  | nil =>
    rw [List.foldl_nil, List.flatten_nil, List.append_nil]
    exact hfull
  | cons c cs ih =>
    have heq : consumed ++ (c :: cs).flatten = (consumed ++ c) ++ cs.flatten := by
      simp [List.append_assoc]
    have Hstep : noDeltaAfterDone (completeLines (consumed ++ c)) = true := by
      refine noDeltaAfterDone_sublist ?_ H
      rw [heq, completeLines_append (consumed ++ c) cs.flatten]
      exact List.sublist_append_left _ _
    obtain ⟨hb2, hf2⟩ := processChunk_invariant st c consumed hbuf hfull Hstep
    rw [List.foldl_cons]
    rw [heq] at H ⊢
    exact ih (processChunk st c) (consumed ++ c) hb2 hf2 H

lemma runDecoder_full_of_noDelta (chunks : List (List Char)) (msgs : List ChatMessage)
    (H : noDeltaAfterDone (completeLines chunks.flatten) = true) :
    (runDecoder chunks msgs).fullResponse = allDeltas (completeLines chunks.flatten) := by
  have h := foldl_processChunk_invariant chunks (initDecodeState msgs) []
    (by rfl) (by rfl) (by simpa using H)
  simpa using h

/-- Claim C2 is false as stated: the unsplit stream below yields an empty
`fullResponse` (the `[DONE]` break skips the rest of the chunk), while the
same bytes split at the newline yield `X` — chunking can change the
result. -/
theorem C2_counterexample :
    ("data: [DONE]\n".data
        ++ "data: \x7b\"choices\":[\x7b\"delta\":\x7b\"content\":\"X\"\x7d\x7d]\x7d\n".data
      = "data: [DONE]\ndata: \x7b\"choices\":[\x7b\"delta\":\x7b\"content\":\"X\"\x7d\x7d]\x7d\n".data)
    ∧ (runDecoder ["data: [DONE]\n".data,
          "data: \x7b\"choices\":[\x7b\"delta\":\x7b\"content\":\"X\"\x7d\x7d]\x7d\n".data]
          []).fullResponse
      ≠ (runDecoder
          ["data: [DONE]\ndata: \x7b\"choices\":[\x7b\"delta\":\x7b\"content\":\"X\"\x7d\x7d]\x7d\n".data]
          []).fullResponse := by
  decide

/-- Claim C2 (amended): for every stream in which no delta-bearing line
occurs after a `[DONE]` sentinel line, every way of splitting the stream
into chunks — a boundary may fall anywhere, including inside a `data: `
line — produces the same final `fullResponse` as the unsplit stream. -/
theorem C2_chunking_amended (chunks : List (List Char)) (msgs : List ChatMessage)
    (H : noDeltaAfterDone (completeLines chunks.flatten) = true) :
    (runDecoder chunks msgs).fullResponse
      = (runDecoder [chunks.flatten] msgs).fullResponse := by
  rw [runDecoder_full_of_noDelta chunks msgs H]
  rw [runDecoder_full_of_noDelta [chunks.flatten] msgs (by simpa using H)]
  simp

theorem C2_chunking_amended_witness :
    noDeltaAfterDone (completeLines
        (["data: \x7b\"choices\":[\x7b\"del".data,
          "ta\":\x7b\"content\":\"hi\"\x7d\x7d]\x7d\ndata: [DONE]\n".data].flatten)) = true
    ∧ (runDecoder ["data: \x7b\"choices\":[\x7b\"del".data,
          "ta\":\x7b\"content\":\"hi\"\x7d\x7d]\x7d\ndata: [DONE]\n".data] []).fullResponse
      = (runDecoder [["data: \x7b\"choices\":[\x7b\"del".data,
          "ta\":\x7b\"content\":\"hi\"\x7d\x7d]\x7d\ndata: [DONE]\n".data].flatten] []).fullResponse :=
  ⟨by decide, C2_chunking_amended _ _ (by decide)⟩

lemma contentDelta_of_parse_none (t : List Char) (h : (jsonParse t).isNone = true) :
    contentDelta t = none := by
  unfold contentDelta
  cases hp : jsonParse t with
  | none => rfl
  | some j => rw [hp] at h; exact Bool.noConfusion h

lemma processLines_skip_malformed (xs ys : List (List Char)) (t : List Char)
    (st : DecodeState)
    (hbad : (jsonParse t).isNone = true)
    (hnotdone : trimChars t ≠ doneChars) :
    processLines (xs ++ (dataPfx ++ t) :: ys) st = processLines (xs ++ ys) st := by
  induction xs generalizing st with
  | nil =>
    rw [List.nil_append, List.nil_append, processLines_cons_eq]
    have hne : ¬ (trimChars (dataPfx ++ t) = [] ∨ dataPfx.isPrefixOf (dataPfx ++ t) = false) := by
      rintro (h1 | h2)
      · rw [show dataPfx ++ t = 'd' :: ("ata: ".data ++ t) by simp [dataPfx]] at h1
        exact trimChars_ne_nil_of_head _ _ (by decide) h1
      · rw [isPrefixOf_append_self] at h2
        exact Bool.noConfusion h2
    rw [if_neg hne]
    rw [show (dataPfx ++ t).drop 6 = t from drop6_data_line t]
    rw [if_neg hnotdone, contentDelta_of_parse_none t hbad]
  | cons l xs ih =>
    rw [List.cons_append, List.cons_append, processLines_cons_eq, processLines_cons_eq]
    by_cases h1 : trimChars l = [] ∨ dataPfx.isPrefixOf l = false
    · rw [if_pos h1, if_pos h1]
      exact ih st
    · rw [if_neg h1, if_neg h1]
      by_cases h2 : trimChars (l.drop 6) = doneChars
      · rw [if_pos h2, if_pos h2]
      · rw [if_neg h2, if_neg h2]
        cases contentDelta (l.drop 6) with
        | none => exact ih st
        | some c => exact ih _

/-- Claim C3: a complete `data: `-prefixed line whose payload fails JSON
parsing (and is not the `[DONE]` sentinel) is skipped without aborting: the
decoder state is exactly as if the malformed line were absent, so the final
cumulative text is the concatenation of the valid lines' deltas and deltas
after the malformed line still apply. -/
theorem C3_malformed_line_skipped (pre post : List (List Char)) (t : List Char)
    (msgs : List ChatMessage)
    (hnl : ∀ l ∈ pre ++ [dataPfx ++ t] ++ post, '\n' ∉ l)
    (hbad : (jsonParse t).isNone = true)
    (hnotdone : trimChars t ≠ doneChars) :
    (runDecoder [mkStream (pre ++ [dataPfx ++ t] ++ post)] msgs).fullResponse
      = (runDecoder [mkStream (pre ++ post)] msgs).fullResponse := by
  unfold runDecoder
  rw [List.foldl_cons, List.foldl_nil, List.foldl_cons, List.foldl_nil]
  unfold processChunk
  have hnl2 : ∀ l ∈ pre ++ post, '\n' ∉ l := by
    intro l hl
    refine hnl l ?_
    rcases List.mem_append.mp hl with h | h
    · exact List.mem_append.mpr (Or.inl (List.mem_append.mpr (Or.inl h)))
    · exact List.mem_append.mpr (Or.inr h)
  have hs1 : splitNl ((initDecodeState msgs).buffer ++ mkStream (pre ++ [dataPfx ++ t] ++ post))
      = (pre ++ [dataPfx ++ t] ++ post) ++ [[]] := by
    rw [show (initDecodeState msgs).buffer = [] from rfl, List.nil_append]
    exact splitNl_mkStream _ hnl
  have hs2 : splitNl ((initDecodeState msgs).buffer ++ mkStream (pre ++ post))
      = (pre ++ post) ++ [[]] := by
    rw [show (initDecodeState msgs).buffer = [] from rfl, List.nil_append]
    exact splitNl_mkStream _ hnl2
  rw [hs1, hs2, List.dropLast_concat, List.dropLast_concat, List.getLast?_concat,
    List.getLast?_concat]
  rw [show pre ++ [dataPfx ++ t] ++ post = pre ++ ((dataPfx ++ t) :: post) by simp]
  rw [processLines_skip_malformed pre post t _ hbad hnotdone]

theorem C3_malformed_line_skipped_witness :
    (jsonParse ("notjson".data)).isNone = true ∧
      (runDecoder [mkStream ([] ++ [dataPfx ++ "notjson".data] ++ [contentLine ("ok".data)])]
          []).fullResponse
        = (runDecoder [mkStream ([] ++ [contentLine ("ok".data)])] []).fullResponse :=
  ⟨by decide,
    C3_malformed_line_skipped [] [contentLine ("ok".data)] ("notjson".data) []
      (by decide) (by decide) (by decide)⟩
